import Mathlib

/-!
# Verification of the `min-batch` stream adapter

This file embeds the core of the `min-batch` Rust crate in Lean and proves
the testable properties stated in its specification.

The crate provides two stream adapters built on the same accumulation loop:

* `MinBatch` (src/lib.rs): regroups upstream items into batches whose
  cumulative weight (`count_fn` summed over the batch) reaches at least
  `min_batch_size`; the final batch at upstream exhaustion may be lighter.
* `MinBatchWithWeight` (src/min_batch_with_weight.rs): identical
  accumulation, but each batch is paired with its accumulated weight.

Two embeddings are used:

* a **sequence-level model** (`minBatchRun`, `minBatchWithWeightRun`):
  the batches produced by draining a finite upstream item list through the
  `poll_next` loop, carrying the `items` buffer and the accumulated
  counter (`current_batch_size` / `current_batch_weight`) explicitly;
* an **event-level model** (`MBState`, `pollNext`, and the weight variant
  `MBWState`, `pollNextW`): one `poll_next` invocation as a function on
  the adapter state, where the upstream (a `Fuse`d stream) answers each
  poll with `Pending`, `Ready(Some(item))` or `Ready(None)`.  This model
  captures suspension, the `Fuse` termination flag, and `is_terminated`.
-/

/-- Sum of the weight function over a list of items: the weight of a
buffer or of a batch. -/
def sumCnt {T : Type} (count_fn : T → Nat) (l : List T) : Nat :=
  (l.map count_fn).sum

/-- The batches emitted by `MinBatch::poll_next` (src/lib.rs, lines
121–148) when the upstream produces exactly the items of `input` and then
signals exhaustion.  `items` and `current_batch_size` are the adapter's
buffer and accumulated counter.  Each upstream item is appended to the
buffer and its weight added to the counter; when the counter reaches
`min_batch_size` the buffer is emitted and the state reset; at exhaustion
a non-empty remainder is emitted as a final batch. -/
def minBatchRun {T : Type} (count_fn : T → Nat) (min_batch_size : Nat) :
    List T → List T → Nat → List (List T)
  | [], items, _current_batch_size =>
      if items.isEmpty then [] else [items]
  | t :: rest, items, current_batch_size =>
      let new_size := current_batch_size + count_fn t
      if min_batch_size ≤ new_size then
        (items ++ [t]) :: minBatchRun count_fn min_batch_size rest [] 0
      else
        minBatchRun count_fn min_batch_size rest (items ++ [t]) new_size

/-- The (batch, weight) pairs emitted by `MinBatchWithWeight::poll_next`
(src/min_batch_with_weight.rs, lines 47–77) on the same upstream:
identical accumulation, but the accumulated weight at emission time is
returned alongside each batch (also for the final drained batch). -/
def minBatchWithWeightRun {T : Type} (count_fn : T → Nat) (min_batch_weight : Nat) :
    List T → List T → Nat → List (List T × Nat)
  | [], items, current_batch_weight =>
      if items.isEmpty then [] else [(items, current_batch_weight)]
  | t :: rest, items, current_batch_weight =>
      let new_weight := current_batch_weight + count_fn t
      if min_batch_weight ≤ new_weight then
        (items ++ [t], new_weight) :: minBatchWithWeightRun count_fn min_batch_weight rest [] 0
      else
        minBatchWithWeightRun count_fn min_batch_weight rest (items ++ [t]) new_weight

/-- `sumCnt` over a buffer after pushing one item. -/
theorem sumCnt_append_single {T : Type} (count_fn : T → Nat) (l : List T) (t : T) :
    sumCnt count_fn (l ++ [t]) = sumCnt count_fn l + count_fn t := by
  simp [sumCnt]

/-- Helper for conservation: starting from an arbitrary buffer, the
concatenation of all emitted batches is the buffer followed by the input. -/
theorem minBatchRun_join {T : Type} (count_fn : T → Nat) (min_batch_size : Nat) :
    ∀ (input items : List T) (current_batch_size : Nat),
      (minBatchRun count_fn min_batch_size input items current_batch_size).flatten
        = items ++ input := by
  intro input
  induction input with
  | nil =>
      intro items current_batch_size
      by_cases h : items.isEmpty
      · simp [minBatchRun, h, List.isEmpty_iff.mp h]
      · simp [minBatchRun, h]
  | cons t rest ih =>
      intro items current_batch_size
      by_cases h : min_batch_size ≤ current_batch_size + count_fn t
      · simp [minBatchRun, h, ih]
      · simp [minBatchRun, h, ih]

/-- C1: Conservation. The concatenation, in order, of all batches emitted
by the plain `MinBatch` adapter on a finite upstream equals the input
sequence: no loss, no duplication, no reordering, within and across
batches. -/
theorem minBatch_conservation {T : Type} (count_fn : T → Nat)
    (min_batch_size : Nat) (input : List T) :
    (minBatchRun count_fn min_batch_size input [] 0).flatten = input := by
  simpa using minBatchRun_join count_fn min_batch_size input [] 0

/-- Helper for the variant equivalence: from any shared starting state,
the weight-reporting run's batches (first components) are exactly the
plain run's batches. -/
theorem minBatchWithWeightRun_fst {T : Type} (count_fn : T → Nat) (mbw : Nat) :
    ∀ (input items : List T) (w : Nat),
      (minBatchWithWeightRun count_fn mbw input items w).map Prod.fst
        = minBatchRun count_fn mbw input items w := by
  intro input
  induction input with
  | nil =>
      intro items w
      by_cases h : items.isEmpty
      · simp [minBatchRun, minBatchWithWeightRun, h]
      · simp [minBatchRun, minBatchWithWeightRun, h]
  | cons t rest ih =>
      intro items w
      by_cases h : mbw ≤ w + count_fn t
      · simp [minBatchRun, minBatchWithWeightRun, h, ih]
      · simp [minBatchRun, minBatchWithWeightRun, h, ih]

/-- C4: the two output variants share the accumulation logic: on every
input, the batches emitted by the plain `MinBatch` adapter are exactly the
first components of the pairs emitted by `MinBatchWithWeight`. -/
theorem minBatch_variant_equivalence {T : Type} (count_fn : T → Nat)
    (min_batch_size : Nat) (input : List T) :
    (minBatchWithWeightRun count_fn min_batch_size input [] 0).map Prod.fst
      = minBatchRun count_fn min_batch_size input [] 0 :=
  minBatchWithWeightRun_fst count_fn min_batch_size input [] 0

/-- Helper for weight accuracy: from any state where the counter equals
the buffer's weight, every emitted pair's reported weight is the weight of
its batch. -/
theorem minBatchWithWeightRun_weight {T : Type} (count_fn : T → Nat) (mbw : Nat) :
    ∀ (input items : List T) (w : Nat), w = sumCnt count_fn items →
      ∀ p ∈ minBatchWithWeightRun count_fn mbw input items w,
        p.2 = sumCnt count_fn p.1 := by
  intro input
  induction input with
  | nil =>
      intro items w hw p hp
      by_cases h : items.isEmpty
      · simp [minBatchWithWeightRun, h] at hp
      · simp [minBatchWithWeightRun, h] at hp
        simp [hp, hw]
  | cons t rest ih =>
      intro items w hw p hp
      by_cases h : mbw ≤ w + count_fn t
      · simp [minBatchWithWeightRun, h] at hp
        rcases hp with hp | hp
        · simp [hp, sumCnt_append_single, hw]
        · exact ih [] 0 (by simp [sumCnt]) p hp
      · simp only [minBatchWithWeightRun, h, if_neg h] at hp
        exact ih (items ++ [t]) (w + count_fn t)
          (by simp [sumCnt_append_single, hw]) p hp

/-- C3: weight-reporting accuracy. Every pair emitted by
`MinBatchWithWeight` reports exactly the sum of `count_fn` over its
batch's items, the final under-threshold batch included. -/
theorem minBatchWithWeight_accuracy {T : Type} (count_fn : T → Nat)
    (min_batch_weight : Nat) (input : List T) :
    ∀ p ∈ minBatchWithWeightRun count_fn min_batch_weight input [] 0,
      p.2 = sumCnt count_fn p.1 :=
  minBatchWithWeightRun_weight count_fn min_batch_weight input [] 0 (by simp [sumCnt])

/-- C3 witness: on the documented example (weights 1,2,3,4 with threshold
3) the second emitted pair reports weight 3, the weight of its batch. -/
theorem minBatchWithWeight_accuracy_witness :
    ([3], 3) ∈ minBatchWithWeightRun (fun n => n) 3 [1, 2, 3, 4] [] 0 ∧
      (([3], 3) : List Nat × Nat).2 = sumCnt (fun n => n) [3] :=
  ⟨by decide, minBatchWithWeight_accuracy (fun n => n) 3 [1, 2, 3, 4] ([3], 3) (by decide)⟩

/-- Dropping the last item of a list cannot increase its weight. -/
theorem sumCnt_dropLast_le {T : Type} (count_fn : T → Nat) :
    ∀ l : List T, sumCnt count_fn l.dropLast ≤ sumCnt count_fn l
  | [] => Nat.le_refl _
  | [_] => by simp [sumCnt]
  | a :: b :: l => by
      have ih := sumCnt_dropLast_le count_fn (b :: l)
      rw [List.dropLast_cons₂]
      have h1 : sumCnt count_fn (a :: (b :: l).dropLast)
          = count_fn a + sumCnt count_fn (b :: l).dropLast := by simp [sumCnt]
      have h2 : sumCnt count_fn (a :: b :: l)
          = count_fn a + sumCnt count_fn (b :: l) := by simp [sumCnt]
      rw [h1, h2]
      exact Nat.add_le_add_left ih _

/-- Helper for the threshold property: from any state where the counter
equals the buffer's weight, every emitted batch but the last weighs at
least the threshold. -/
theorem minBatchRun_threshold {T : Type} (count_fn : T → Nat) (mbs : Nat) :
    ∀ (input items : List T) (w : Nat), w = sumCnt count_fn items →
      ∀ b ∈ (minBatchRun count_fn mbs input items w).dropLast,
        mbs ≤ sumCnt count_fn b := by
  intro input
  induction input with
  | nil =>
      intro items w _hw b hb
      by_cases h : items.isEmpty <;> simp [minBatchRun, h] at hb
  | cons t rest ih =>
      intro items w hw b hb
      by_cases h : mbs ≤ w + count_fn t
      · simp only [minBatchRun, if_pos h] at hb
        rcases hL : minBatchRun count_fn mbs rest [] 0 with _ | ⟨c, L⟩
        · rw [hL] at hb
          simp at hb
        · rw [hL, List.dropLast_cons₂] at hb
          rcases List.mem_cons.mp hb with rfl | hb
          · rw [sumCnt_append_single, ← hw]
            exact h
          · refine ih [] 0 (by simp [sumCnt]) b ?_
            rw [hL]
            exact hb
      · simp only [minBatchRun, if_neg h] at hb
        exact ih (items ++ [t]) (w + count_fn t)
          (by simp [sumCnt_append_single, hw]) b hb

/-- C2: threshold property. Every batch emitted by `MinBatch` except
possibly the last one weighs at least `min_batch_size`. -/
theorem minBatch_threshold {T : Type} (count_fn : T → Nat)
    (min_batch_size : Nat) (input : List T) :
    ∀ b ∈ (minBatchRun count_fn min_batch_size input [] 0).dropLast,
      min_batch_size ≤ sumCnt count_fn b :=
  minBatchRun_threshold count_fn min_batch_size input [] 0 (by simp [sumCnt])

/-- C2 witness: on the documented example (weights 1,2,3,4 with threshold
3) the first batch `[1, 2]` is not the last and weighs at least 3. -/
theorem minBatch_threshold_witness :
    [1, 2] ∈ (minBatchRun (fun n => n) 3 [1, 2, 3, 4] [] 0).dropLast ∧
      3 ≤ sumCnt (fun n => n) [1, 2] :=
  ⟨by decide, minBatch_threshold (fun n => n) 3 [1, 2, 3, 4] [1, 2] (by decide)⟩

/-- Helper for the earliest-cut property: from any state whose buffer is
still below the threshold, every emitted batch already crossed the
threshold exactly at its last item: without that item it is below. -/
theorem minBatchRun_earliest_cut {T : Type} (count_fn : T → Nat) (mbs : Nat) :
    ∀ (input items : List T) (w : Nat), w = sumCnt count_fn items → w < mbs →
      ∀ b ∈ minBatchRun count_fn mbs input items w,
        sumCnt count_fn b.dropLast < mbs := by
  intro input
  induction input with
  | nil =>
      intro items w hw hlt b hb
      by_cases h : items.isEmpty
      · simp [minBatchRun, h] at hb
      · simp [minBatchRun, h] at hb
        subst hb
        calc sumCnt count_fn b.dropLast ≤ sumCnt count_fn b := sumCnt_dropLast_le count_fn b
          _ < mbs := hw ▸ hlt
  | cons t rest ih =>
      intro items w hw hlt b hb
      by_cases h : mbs ≤ w + count_fn t
      · simp only [minBatchRun, if_pos h] at hb
        rcases List.mem_cons.mp hb with rfl | hb
        · rw [List.dropLast_concat, ← hw]
          exact hlt
        · exact ih [] 0 (by simp [sumCnt]) (Nat.lt_of_le_of_lt (Nat.zero_le w) hlt) b hb
      · simp only [minBatchRun, if_neg h] at hb
        exact ih (items ++ [t]) (w + count_fn t)
          (by simp [sumCnt_append_single, hw]) (Nat.lt_of_not_le h) b hb

/-- C10: earliest cut. For a positive threshold, every emitted batch
(final one included) weighs strictly less than `min_batch_size` once its
last item is removed: the batch is cut exactly at the item whose addition
first reached the threshold. -/
theorem minBatch_earliest_cut {T : Type} (count_fn : T → Nat)
    (min_batch_size : Nat) (input : List T) (hpos : 0 < min_batch_size) :
    ∀ b ∈ minBatchRun count_fn min_batch_size input [] 0,
      sumCnt count_fn b.dropLast < min_batch_size :=
  minBatchRun_earliest_cut count_fn min_batch_size input [] 0 (by simp [sumCnt]) hpos

/-- C10 witness: on the documented example, the batch `[1, 2]` without its
last item weighs 1, strictly below the threshold 3. -/
theorem minBatch_earliest_cut_witness :
    (0 < 3 ∧ [1, 2] ∈ minBatchRun (fun n => n) 3 [1, 2, 3, 4] [] 0) ∧
      sumCnt (fun n => n) ([1, 2] : List Nat).dropLast < 3 :=
  ⟨⟨by decide, by decide⟩,
    minBatch_earliest_cut (fun n => n) 3 [1, 2, 3, 4] (by decide) [1, 2] (by decide)⟩

/-- One answer of the fused upstream stream to a poll: `Poll::Pending`,
`Poll::Ready(Some(item))`, or `Poll::Ready(None)` (exhaustion). -/
inductive Ev (T : Type) where
  | pending
  | item (t : T)
  | done
  deriving DecidableEq

/-- Result of one `poll_next` call on an adapter: `Poll::Pending`,
`Poll::Ready(Some(o))` (`emit`), or `Poll::Ready(None)` (`finished`). -/
inductive PollRes (O : Type) where
  | pend
  | emit (o : O)
  | finished
  deriving DecidableEq

/-- State of a `MinBatch` adapter (src/lib.rs, lines 83–97): the
remaining answers of the inner upstream stream, the `Fuse` wrapper's
termination flag (set once the inner stream returns `None`), the `items`
buffer and the `current_batch_size` counter. -/
structure MBState (T : Type) where
  events : List (Ev T)
  fuseDone : Bool
  items : List T
  current_batch_size : Nat
  deriving DecidableEq

/-- State of a `MinBatchWithWeight` adapter
(src/min_batch_with_weight.rs, lines 8–22). -/
structure MBWState (T : Type) where
  events : List (Ev T)
  fuseDone : Bool
  items : List T
  current_batch_weight : Nat
  deriving DecidableEq

/-- The inner loop of `MinBatch::poll_next` (src/lib.rs, lines 123–147):
poll the upstream; `Pending` propagates out (`ready!`); an item is pushed
and weighed, emitting the buffer once the counter reaches the threshold;
`None` sets the `Fuse` flag and drains a non-empty remainder.  An
exhausted event script means the upstream never answers again: the call
stays pending. -/
def pollNextGo {T : Type} (count_fn : T → Nat) (min_batch_size : Nat) :
    List (Ev T) → List T → Nat → MBState T × PollRes (List T)
  | [], items, current_batch_size =>
      (⟨[], false, items, current_batch_size⟩, .pend)
  | .pending :: evs, items, current_batch_size =>
      (⟨evs, false, items, current_batch_size⟩, .pend)
  | .done :: evs, items, current_batch_size =>
      if items.isEmpty then (⟨evs, true, items, current_batch_size⟩, .finished)
      else (⟨evs, true, [], 0⟩, .emit items)
  | .item t :: evs, items, current_batch_size =>
      let new_size := current_batch_size + count_fn t
      if min_batch_size ≤ new_size then (⟨evs, false, [], 0⟩, .emit (items ++ [t]))
      else pollNextGo count_fn min_batch_size evs (items ++ [t]) new_size

/-- One `MinBatch::poll_next` invocation on a state.  When the `Fuse`
flag is already set, polling the fused stream yields `None` immediately
and the `None` arm of the match runs. -/
def pollNext {T : Type} (count_fn : T → Nat) (min_batch_size : Nat)
    (s : MBState T) : MBState T × PollRes (List T) :=
  if s.fuseDone then
    if s.items.isEmpty then (s, .finished)
    else (⟨s.events, s.fuseDone, [], 0⟩, .emit s.items)
  else
    pollNextGo count_fn min_batch_size s.events s.items s.current_batch_size

/-- The inner loop of `MinBatchWithWeight::poll_next`
(src/min_batch_with_weight.rs, lines 49–75): as `pollNextGo`, but each
emission pairs the batch with the accumulated weight at emission time. -/
def pollNextWGo {T : Type} (count_fn : T → Nat) (min_batch_weight : Nat) :
    List (Ev T) → List T → Nat → MBWState T × PollRes (List T × Nat)
  | [], items, current_batch_weight =>
      (⟨[], false, items, current_batch_weight⟩, .pend)
  | .pending :: evs, items, current_batch_weight =>
      (⟨evs, false, items, current_batch_weight⟩, .pend)
  | .done :: evs, items, current_batch_weight =>
      if items.isEmpty then (⟨evs, true, items, current_batch_weight⟩, .finished)
      else (⟨evs, true, [], 0⟩, .emit (items, current_batch_weight))
  | .item t :: evs, items, current_batch_weight =>
      let new_weight := current_batch_weight + count_fn t
      if min_batch_weight ≤ new_weight then
        (⟨evs, false, [], 0⟩, .emit (items ++ [t], new_weight))
      else pollNextWGo count_fn min_batch_weight evs (items ++ [t]) new_weight

/-- One `MinBatchWithWeight::poll_next` invocation on a state. -/
def pollNextW {T : Type} (count_fn : T → Nat) (min_batch_weight : Nat)
    (s : MBWState T) : MBWState T × PollRes (List T × Nat) :=
  if s.fuseDone then
    if s.items.isEmpty then (s, .finished)
    else (⟨s.events, s.fuseDone, [], 0⟩, .emit (s.items, s.current_batch_weight))
  else
    pollNextWGo count_fn min_batch_weight s.events s.items s.current_batch_weight

/-- States of a `MinBatch` adapter reachable by polling from the state
built by `MinBatch::new` (src/lib.rs, lines 103–111): empty buffer, zero
counter, un-terminated fuse, upstream script `ev0`. -/
inductive ReachableMB {T : Type} (count_fn : T → Nat) (min_batch_size : Nat)
    (ev0 : List (Ev T)) : MBState T → Prop where
  | init : ReachableMB count_fn min_batch_size ev0 ⟨ev0, false, [], 0⟩
  | step {s : MBState T} : ReachableMB count_fn min_batch_size ev0 s →
      ReachableMB count_fn min_batch_size ev0 (pollNext count_fn min_batch_size s).1

/-- States of a `MinBatchWithWeight` adapter reachable by polling from
the state built by `MinBatchWithWeight::new`
(src/min_batch_with_weight.rs, lines 29–37). -/
inductive ReachableMBW {T : Type} (count_fn : T → Nat) (min_batch_weight : Nat)
    (ev0 : List (Ev T)) : MBWState T → Prop where
  | init : ReachableMBW count_fn min_batch_weight ev0 ⟨ev0, false, [], 0⟩
  | step {s : MBWState T} : ReachableMBW count_fn min_batch_weight ev0 s →
      ReachableMBW count_fn min_batch_weight ev0 (pollNextW count_fn min_batch_weight s).1

/-- A list of zero total weight is empty when every item weighs more than
zero. -/
theorem sumCnt_eq_zero_of_pos {T : Type} (count_fn : T → Nat)
    (hpos : ∀ t, 0 < count_fn t) :
    ∀ l : List T, sumCnt count_fn l = 0 → l = [] := by
  intro l hl
  cases l with
  | nil => rfl
  | cons a l =>
      exfalso
      have : 0 < sumCnt count_fn (a :: l) := by
        have := hpos a
        simp [sumCnt]
        omega
      omega

/-- The `poll_next` loop of `MinBatch` preserves the counter invariant:
if the counter equals the buffer's weight on entry, it does on exit. -/
theorem pollNextGo_size {T : Type} (count_fn : T → Nat) (mbs : Nat) :
    ∀ (evs : List (Ev T)) (items : List T) (w : Nat), w = sumCnt count_fn items →
      (pollNextGo count_fn mbs evs items w).1.current_batch_size
        = sumCnt count_fn (pollNextGo count_fn mbs evs items w).1.items := by
  intro evs
  induction evs with
  | nil =>
      intro items w hw
      simpa [pollNextGo] using hw
  | cons e evs ih =>
      intro items w hw
      cases e with
      | pending => simpa [pollNextGo] using hw
      | done =>
          by_cases h : items.isEmpty
          · simpa [pollNextGo, h] using hw
          · simp [pollNextGo, h, sumCnt]
      | item t =>
          by_cases h : mbs ≤ w + count_fn t
          · simp [pollNextGo, h, sumCnt]
          · simp only [pollNextGo, if_neg h]
            exact ih (items ++ [t]) (w + count_fn t) (by simp [sumCnt_append_single, hw])

/-- The `poll_next` loop of `MinBatchWithWeight` preserves the counter
invariant. -/
theorem pollNextWGo_weight {T : Type} (count_fn : T → Nat) (mbw : Nat) :
    ∀ (evs : List (Ev T)) (items : List T) (w : Nat), w = sumCnt count_fn items →
      (pollNextWGo count_fn mbw evs items w).1.current_batch_weight
        = sumCnt count_fn (pollNextWGo count_fn mbw evs items w).1.items := by
  intro evs
  induction evs with
  | nil =>
      intro items w hw
      simpa [pollNextWGo] using hw
  | cons e evs ih =>
      intro items w hw
      cases e with
      | pending => simpa [pollNextWGo] using hw
      | done =>
          by_cases h : items.isEmpty
          · simpa [pollNextWGo, h] using hw
          · simp [pollNextWGo, h, sumCnt]
      | item t =>
          by_cases h : mbw ≤ w + count_fn t
          · simp [pollNextWGo, h, sumCnt]
          · simp only [pollNextWGo, if_neg h]
            exact ih (items ++ [t]) (w + count_fn t) (by simp [sumCnt_append_single, hw])

/-- Every reachable `MinBatch` state has its counter equal to the
buffer's weight. -/
theorem reachableMB_size_eq {T : Type} (count_fn : T → Nat) (mbs : Nat)
    (ev0 : List (Ev T)) (s : MBState T)
    (hr : ReachableMB count_fn mbs ev0 s) :
    s.current_batch_size = sumCnt count_fn s.items := by
  induction hr with
  | init => simp [sumCnt]
  | @step s' _ ih =>
      by_cases hd : s'.fuseDone
      · by_cases he : s'.items.isEmpty
        · simpa [pollNext, hd, he] using ih
        · simp [pollNext, hd, he, sumCnt]
      · simpa [pollNext, hd] using
          pollNextGo_size count_fn mbs s'.events s'.items s'.current_batch_size ih

/-- Every reachable `MinBatchWithWeight` state has its counter equal to
the buffer's weight. -/
theorem reachableMBW_weight_eq {T : Type} (count_fn : T → Nat) (mbw : Nat)
    (ev0 : List (Ev T)) (s : MBWState T)
    (hr : ReachableMBW count_fn mbw ev0 s) :
    s.current_batch_weight = sumCnt count_fn s.items := by
  induction hr with
  | init => simp [sumCnt]
  | @step s' _ ih =>
      by_cases hd : s'.fuseDone
      · by_cases he : s'.items.isEmpty
        · simpa [pollNextW, hd, he] using ih
        · simp [pollNextW, hd, he, sumCnt]
      · simpa [pollNextW, hd] using
          pollNextWGo_weight count_fn mbw s'.events s'.items s'.current_batch_weight ih

/-- C5 counterexample: with zero-weight items the claimed equivalence
"counter is zero if and only if the buffer is empty" fails.  With
`count_fn ≡ 0` and threshold 1, polling the adapter on a single upstream
item reaches a state whose buffer holds that item while the counter is
still 0. -/
theorem minBatch_counter_iff_counterexample :
    ReachableMB (fun _ : Unit => 0) 1 [Ev.item ()]
        (⟨[], false, [()], 0⟩ : MBState Unit) ∧
      (⟨[], false, [()], 0⟩ : MBState Unit).current_batch_size = 0 ∧
      (⟨[], false, [()], 0⟩ : MBState Unit).items ≠ [] := by
  refine ⟨?_, rfl, by simp⟩
  have h0 : ReachableMB (fun _ : Unit => 0) 1 [Ev.item ()]
      ⟨[Ev.item ()], false, [], 0⟩ := ReachableMB.init
  have h1 := h0.step
  have he : (pollNext (fun _ : Unit => 0) 1 ⟨[Ev.item ()], false, [], 0⟩).1
      = (⟨[], false, [()], 0⟩ : MBState Unit) := rfl
  rw [he] at h1
  exact h1

/-- C5 (amended): in every reachable state of either adapter the counter
(`current_batch_size` / `current_batch_weight`) equals the sum of
`count_fn` over the buffered items; hence an empty buffer has counter
zero.  The converse — counter zero implies empty buffer — holds whenever
`count_fn` is strictly positive, but can fail for zero-weight items. -/
theorem minBatch_counter_invariant {T : Type} (count_fn : T → Nat)
    (mb : Nat) (ev0 : List (Ev T)) (s : MBState T) (sw : MBWState T)
    (hs : ReachableMB count_fn mb ev0 s)
    (hsw : ReachableMBW count_fn mb ev0 sw) :
    (s.current_batch_size = sumCnt count_fn s.items ∧
      (s.items = [] → s.current_batch_size = 0) ∧
      ((∀ t, 0 < count_fn t) → s.current_batch_size = 0 → s.items = [])) ∧
    (sw.current_batch_weight = sumCnt count_fn sw.items ∧
      (sw.items = [] → sw.current_batch_weight = 0) ∧
      ((∀ t, 0 < count_fn t) → sw.current_batch_weight = 0 → sw.items = [])) := by
  have h1 := reachableMB_size_eq count_fn mb ev0 s hs
  have h2 := reachableMBW_weight_eq count_fn mb ev0 sw hsw
  refine ⟨⟨h1, ?_, ?_⟩, ⟨h2, ?_, ?_⟩⟩
  · intro he
    simp [h1, he, sumCnt]
  · intro hpos hz
    exact sumCnt_eq_zero_of_pos count_fn hpos s.items (by rw [← h1]; exact hz)
  · intro he
    simp [h2, he, sumCnt]
  · intro hpos hz
    exact sumCnt_eq_zero_of_pos count_fn hpos sw.items (by rw [← h2]; exact hz)

/-- C5 witness: the amended invariant instantiated at freshly constructed
adapters with unit weight. -/
theorem minBatch_counter_invariant_witness :
    ((⟨[], false, [], 0⟩ : MBState Unit).current_batch_size
        = sumCnt (fun _ : Unit => 1) (⟨[], false, [], 0⟩ : MBState Unit).items ∧
      ((⟨[], false, [], 0⟩ : MBState Unit).items = [] →
        (⟨[], false, [], 0⟩ : MBState Unit).current_batch_size = 0) ∧
      ((∀ _t : Unit, 0 < 1) → (⟨[], false, [], 0⟩ : MBState Unit).current_batch_size = 0 →
        (⟨[], false, [], 0⟩ : MBState Unit).items = [])) ∧
    ((⟨[], false, [], 0⟩ : MBWState Unit).current_batch_weight
        = sumCnt (fun _ : Unit => 1) (⟨[], false, [], 0⟩ : MBWState Unit).items ∧
      ((⟨[], false, [], 0⟩ : MBWState Unit).items = [] →
        (⟨[], false, [], 0⟩ : MBWState Unit).current_batch_weight = 0) ∧
      ((∀ _t : Unit, 0 < 1) → (⟨[], false, [], 0⟩ : MBWState Unit).current_batch_weight = 0 →
        (⟨[], false, [], 0⟩ : MBWState Unit).items = [])) :=
  minBatch_counter_invariant (fun _ : Unit => 1) 1 [] ⟨[], false, [], 0⟩ ⟨[], false, [], 0⟩
    ReachableMB.init ReachableMBW.init

/-- C6: suspension frame property. When the upstream answers `Pending`,
`poll_next` of either adapter returns `Pending` itself, emits nothing,
and leaves the buffer and the counter untouched. -/
theorem minBatch_pending_frame {T : Type} (count_fn : T → Nat) (mb : Nat)
    (evs : List (Ev T)) (items : List T) (w : Nat) :
    pollNext count_fn mb ⟨Ev.pending :: evs, false, items, w⟩
        = (⟨evs, false, items, w⟩, PollRes.pend) ∧
      pollNextW count_fn mb ⟨Ev.pending :: evs, false, items, w⟩
        = (⟨evs, false, items, w⟩, PollRes.pend) :=
  ⟨rfl, rfl⟩

/-- C8: termination is absorbing. Consuming the upstream's exhaustion
signal leaves the `Fuse` flag set and the buffer empty (after the final
batch, if any, is emitted in that same call); and from any such state
every later `poll_next` returns end-of-output and leaves the state fixed,
forever. -/
theorem minBatch_terminated_absorbing {T : Type} (count_fn : T → Nat) (mbs : Nat)
    (evs evs2 : List (Ev T)) (items : List T) (w w2 n : Nat) :
    ((pollNext count_fn mbs ⟨Ev.done :: evs2, false, items, w2⟩).1.fuseDone = true ∧
      (pollNext count_fn mbs ⟨Ev.done :: evs2, false, items, w2⟩).1.items = []) ∧
    pollNext count_fn mbs ⟨evs, true, [], w⟩
        = (⟨evs, true, [], w⟩, PollRes.finished) ∧
    (fun s => (pollNext count_fn mbs s).1)^[n] ⟨evs, true, [], w⟩
        = (⟨evs, true, [], w⟩ : MBState T) := by
  refine ⟨?_, rfl, ?_⟩
  · by_cases h : items.isEmpty
    · simp [pollNext, pollNextGo, h, List.isEmpty_iff.mp h]
    · simp [pollNext, pollNextGo, h]
  · exact Function.iterate_fixed rfl n

/-- `MinBatch::is_terminated` (src/lib.rs, lines 164–172, and
src/ext.rs, lines 30–38): the `Fuse` flag conjoined with buffer
emptiness. -/
def isTerminatedMB {T : Type} (s : MBState T) : Bool :=
  s.fuseDone && s.items.isEmpty

/-- `MinBatchWithWeight::is_terminated` (src/ext.rs, lines 40–48). -/
def isTerminatedMBW {T : Type} (s : MBWState T) : Bool :=
  s.fuseDone && s.items.isEmpty

/-- C9: for either adapter, `is_terminated` holds exactly when the fused
upstream is drained (its `Fuse` flag is set) and the internal buffer is
empty. -/
theorem minBatch_is_terminated_iff {T : Type} (s : MBState T) (sw : MBWState T) :
    (isTerminatedMB s = true ↔ s.fuseDone = true ∧ s.items = []) ∧
    (isTerminatedMBW sw = true ↔ sw.fuseDone = true ∧ sw.items = []) := by
  constructor <;> simp [isTerminatedMB, isTerminatedMBW]

/-- C7 counterexample: the adapter does not surface upstream failures.
With failure-capable items (`Except`), unit weights and threshold 3, the
input `[ok 5, error ()]` makes the code emit the single batch
`[ok 5, error ()]`: the failure value is delivered *inside* a batch, and
the item buffered before it is delivered rather than discarded — against
the claim that a failure is surfaced immediately, alone, with buffered
items dropped. -/
theorem minBatch_error_counterexample :
    minBatchRun (fun _ : Except Unit Nat => 1) 3 [Except.ok 5, Except.error ()] [] 0
        = [[Except.ok 5, Except.error ()]] ∧
      ¬ ∀ b ∈ minBatchRun (fun _ : Except Unit Nat => 1) 3
            [Except.ok 5, Except.error ()] [] 0,
          Except.error () ∉ b ∧ Except.ok 5 ∉ b := by
  refine ⟨rfl, fun hclaim => ?_⟩
  have hmem : [Except.ok 5, Except.error ()]
      ∈ minBatchRun (fun _ : Except Unit Nat => 1) 3 [Except.ok 5, Except.error ()] [] 0 := by
    rw [show minBatchRun (fun _ : Except Unit Nat => 1) 3 [Except.ok 5, Except.error ()] [] 0
        = [[Except.ok 5, Except.error ()]] from rfl]
    exact List.mem_singleton_self _
  exact (hclaim _ hmem).1 (by simp)

/-- C7 (amended): the adapter has no failure channel. A failure value
produced upstream is treated as an ordinary item — weighted by
`count_fn`, buffered, and emitted inside a batch in arrival order.
Buffered items are not discarded and batching continues past the failure:
the concatenation of the emitted batches is still exactly the input,
failure values included in place. -/
theorem minBatch_error_passthrough {E U : Type} (count_fn : Except E U → Nat)
    (min_batch_size : Nat) (input : List (Except E U)) :
    (minBatchRun count_fn min_batch_size input [] 0).flatten = input := by
  simpa using minBatchRun_join count_fn min_batch_size input [] 0
